import Mathlib

/-!
Shallow embedding of the core of the zeptohttpc HTTP/1.x client, together
with proofs of the specification claims about it.

Bytes are modelled as natural numbers (the ASCII code points that matter
here are concrete), buffered readers as an explicit state record, and the
fallible Rust functions as `Except`-valued Lean functions.  Loops of the
source become fueled recursive functions; every theorem that needs the
loop to run to completion supplies enough fuel explicitly.
-/

/-- Error kinds produced by the embedded code, mirroring the I/O error
kinds and `zeptohttpc::Error` variants that the claims mention. -/
inductive ZErr where
  | unexpectedEof
  | maxParseBuf
  | invalidChunkSize
  | invalidLineEnding
  | tooManyRedirects
  | missingLocation
  | timedOut
  | outOfFuel
  | otherErr
deriving DecidableEq, Repr

/-- Model of `std::io::BufRead`: `cur` is the unconsumed part of the
buffer currently exposed by `fill_buf`, `rest` is the sequence of chunks
that future refills of the buffer will deliver (an empty refill means
end of file). -/
structure BufState where
  cur : List Nat
  rest : List (List Nat)
deriving DecidableEq, Repr

/-- Model of `BufRead::fill_buf`: return the current buffer; when it is
exhausted, pull the next chunk from the underlying source (or the empty
buffer at end of file). -/
def fillBuf (s : BufState) : List Nat × BufState :=
  match s.cur with
  | [] =>
    match s.rest with
    | [] => ([], s)
    | c :: rs => (c, ⟨c, rs⟩)
  | _ => (s.cur, s)

/-- Model of `BufRead::consume`: drop `amt` bytes from the current buffer
(clamped at the buffer length, as `BufReader::consume` clamps). -/
def consume (s : BufState) (amt : Nat) : BufState :=
  ⟨s.cur.drop amt, s.rest⟩

/-- All bytes the reader will ever deliver, in order. -/
def streamOf (s : BufState) : List Nat :=
  s.cur ++ s.rest.flatten

/-- Result type of a pure incremental parse function, mirroring
`httparse::Status`: `complete (consumed, value)` or `more` (the source
calls the latter `Partial`). -/
inductive PStatus (T : Type) where
  | complete : Nat × T → PStatus T
  | more : PStatus T
deriving DecidableEq, Repr

/-- Constant `MAX_HEADERS` from `lib.rs`. -/
def MAX_HEADERS : Nat := 128

/-- Constant `MAX_PARSE_BUF_LEN` from `lib.rs`. -/
def MAX_PARSE_BUF_LEN : Nat := MAX_HEADERS * 1024

/-- Model of the cold loop `parse_buffered` of `parse.rs`: refill, fail
with `UnexpectedEof` on an empty fill, fail with the buffer-limit error
when the accumulator would exceed `MAX_PARSE_BUF_LEN`, otherwise extend
the accumulator and retry the parser; on completion consume from the
reader only the part of `parsed` not consumed in earlier rounds.  `fuel`
bounds the number of rounds (the Rust loop is unbounded; every use below
supplies fuel that is provably sufficient). -/
def parseBuffered {T : Type} (P : List Nat → Except ZErr (PStatus T)) :
    Nat → BufState → List Nat → Except ZErr (T × BufState)
  | 0, _, _ => .error .outOfFuel
  | fuel + 1, s, buf1 =>
    match fillBuf s with
    | (buf, s1) =>
      if buf = [] then .error .unexpectedEof
      else if MAX_PARSE_BUF_LEN < buf1.length + buf.length then .error .maxParseBuf
      else
        match P (buf1 ++ buf) with
        | .error e => .error e
        | .ok (.complete (parsed, val)) =>
          .ok (val, consume s1 (parsed - ((buf1 ++ buf).length - buf.length)))
        | .ok .more => parseBuffered P fuel (consume s1 buf.length) (buf1 ++ buf)

/-- Model of `parse` of `parse.rs`: fast path straight off the first
fill, falling back to `parseBuffered` when the parser wants more. -/
def parse {T : Type} (P : List Nat → Except ZErr (PStatus T)) (fuel : Nat)
    (s : BufState) : Except ZErr (T × BufState) :=
  match fillBuf s with
  | (buf, s1) =>
    match P buf with
    | .error e => .error e
    | .ok (.complete (parsed, val)) => .ok (val, consume s1 parsed)
    | .ok .more => parseBuffered P fuel s1 []

/-- Instrumented copy of `parseBuffered` that additionally reports the
largest accumulator the parser was ever applied to (a ghost observer used
to state the accumulator bound of the spec). -/
def parseBufferedAcc {T : Type} (P : List Nat → Except ZErr (PStatus T)) :
    Nat → BufState → List Nat → Except ZErr (T × BufState) × Nat
  | 0, _, _ => (.error .outOfFuel, 0)
  | fuel + 1, s, buf1 =>
    match fillBuf s with
    | (buf, s1) =>
      if buf = [] then (.error .unexpectedEof, 0)
      else if MAX_PARSE_BUF_LEN < buf1.length + buf.length then (.error .maxParseBuf, 0)
      else
        match P (buf1 ++ buf) with
        | .error e => (.error e, (buf1 ++ buf).length)
        | .ok (.complete (parsed, val)) =>
          (.ok (val, consume s1 (parsed - ((buf1 ++ buf).length - buf.length))),
            (buf1 ++ buf).length)
        | .ok .more =>
          match parseBufferedAcc P fuel (consume s1 buf.length) (buf1 ++ buf) with
          | (res, m) => (res, max (buf1 ++ buf).length m)

/-- Fuel that always suffices for the buffered loop: one round per
pending chunk, plus one for a still-unconsumed current buffer, plus one
round to observe end of file. -/
def readerFuel (s : BufState) : Nat :=
  s.rest.length + 2

theorem fillBuf_streamOf (s : BufState) : streamOf (fillBuf s).2 = streamOf s := by
  unfold fillBuf streamOf
  match s with
  | ⟨[], []⟩ => rfl
  | ⟨[], c :: rs⟩ => simp
  | ⟨a :: as, rs⟩ => rfl

theorem fillBuf_cur (s : BufState) : (fillBuf s).2.cur = (fillBuf s).1 := by
  unfold fillBuf
  match s with
  | ⟨[], []⟩ => rfl
  | ⟨[], c :: rs⟩ => rfl
  | ⟨a :: as, rs⟩ => rfl

theorem fillBuf_eq_take (s : BufState) :
    (fillBuf s).1 = (streamOf s).take (fillBuf s).1.length := by
  unfold fillBuf streamOf
  match s with
  | ⟨[], []⟩ => rfl
  | ⟨[], c :: rs⟩ => simp [List.take_left]
  | ⟨a :: as, rs⟩ => simp [List.take_left]

theorem fillBuf_rest_sub (s : BufState) :
    ∀ ch ∈ (fillBuf s).2.rest, ch ∈ s.rest := by
  unfold fillBuf
  match s with
  | ⟨[], []⟩ => exact fun ch h => h
  | ⟨[], c :: rs⟩ => exact fun ch h => List.mem_cons_of_mem c h
  | ⟨a :: as, rs⟩ => exact fun ch h => h

/-- Invariant of the cold loop: if the accumulated buffer is the first
`c` bytes of the stream, the parser keeps answering `more` strictly below
`n` bytes and answers `complete (n, v)` from `n` bytes on, then the loop
returns `v` having consumed exactly the first `n` bytes of the stream. -/
theorem parseBuffered_completes {T : Type} (P : List Nat → Except ZErr (PStatus T))
    (L : List Nat) (n : Nat) (v : T)
    (hn : ∀ m, m < n → P (L.take m) = .ok .more)
    (hc : ∀ m, n ≤ m → m ≤ L.length → P (L.take m) = .ok (.complete (n, v)))
    (hmax : L.length ≤ MAX_PARSE_BUF_LEN)
    (hlen : n ≤ L.length) (fuel : Nat) :
    ∀ t c, streamOf t = L.drop c → (∀ ch ∈ t.rest, ch ≠ []) → c < n →
      t.rest.length + (if t.cur = [] then 1 else 2) ≤ fuel →
      ∃ t2, parseBuffered P fuel t (L.take c) = .ok (v, t2) ∧
        streamOf t2 = L.drop n := by
  induction fuel with
  | zero =>
    intro t c _ _ _ hfuel
    exfalso
    rcases t with ⟨cur, rest⟩
    cases cur <;> simp at hfuel
  | succ f ih =>
    intro t c hstream hne hcn hfuel
    have hcL : c ≤ L.length := le_trans (le_of_lt hcn) hlen
    have hlent : (L.take c).length = c := by
      rw [List.length_take]; omega
    obtain ⟨cur, rest⟩ := t
    cases cur with
    | nil =>
      cases rest with
      | nil =>
        -- no bytes left at all, impossible since c < n ≤ L.length
        exfalso
        have hLc : L.drop c = [] := by
          rw [← hstream]; rfl
        have := congrArg List.length hLc
        simp [List.length_drop] at this
        omega
      | cons r rs =>
        -- pop the next chunk r from the source
        have hbne : r ≠ [] := hne r (List.mem_cons_self r rs)
        have hb1 : 1 ≤ r.length := List.length_pos.2 hbne
        have hsplit : r ++ rs.flatten = L.drop c := by
          simpa [streamOf] using hstream
        have hble : r.length + rs.flatten.length = L.length - c := by
          have := congrArg List.length hsplit
          simpa [List.length_append, List.length_drop] using this
        have htake : L.take c ++ r = L.take (c + r.length) := by
          have hr : (L.drop c).take r.length = r := by
            rw [← hsplit, List.take_left]
          rw [List.take_add, hr]
        have hstep : fillBuf ⟨[], r :: rs⟩ = (r, ⟨r, rs⟩) := rfl
        have hnolim : ¬ MAX_PARSE_BUF_LEN < (L.take c).length + r.length := by
          rw [hlent]; omega
        rw [parseBuffered, hstep]
        simp only [hbne, if_false, hnolim, if_false]
        by_cases hcomp : n ≤ c + r.length
        · have hP : P (L.take c ++ r) = .ok (.complete (n, v)) := by
            rw [htake]; exact hc _ hcomp (by omega)
          simp only [hP]
          have hamt : n - ((L.take c ++ r).length - r.length) = n - c := by
            simp [List.length_append, hlent]
          have hncr : n - c ≤ r.length := by omega
          refine ⟨_, rfl, ?_⟩
          rw [hamt]
          have hso : streamOf (consume ⟨r, rs⟩ (n - c)) = (r ++ rs.flatten).drop (n - c) := by
            simp [streamOf, consume, List.drop_append_of_le_length hncr]
          rw [hso, hsplit, List.drop_drop]
          congr 1
          omega
        · have hP : P (L.take c ++ r) = .ok .more := by
            rw [htake]; exact hn _ (by omega)
          simp only [hP]
          have hcons : consume ⟨r, rs⟩ r.length = ⟨[], rs⟩ := by
            simp [consume]
          rw [hcons, htake]
          apply ih ⟨[], rs⟩ (c + r.length)
          · have hfl : rs.flatten = (L.drop c).drop r.length := by
              rw [← hsplit, List.drop_left]
            rw [streamOf]
            simpa [List.drop_drop, Nat.add_comm] using hfl
          · exact fun ch hch => hne ch (List.mem_cons_of_mem r hch)
          · omega
          · change rs.length + 1 + 1 ≤ f + 1 at hfuel
            change rs.length + 1 ≤ f
            omega
    | cons a as =>
      -- the current buffer is still unconsumed
      set b : List Nat := a :: as with hb
      have hbne : b ≠ [] := by rw [hb]; simp
      have hb1 : 1 ≤ b.length := List.length_pos.2 hbne
      have hsplit : b ++ rest.flatten = L.drop c := by
        simpa [streamOf] using hstream
      have hble : b.length + rest.flatten.length = L.length - c := by
        have := congrArg List.length hsplit
        simpa [List.length_append, List.length_drop] using this
      have htake : L.take c ++ b = L.take (c + b.length) := by
        have hr : (L.drop c).take b.length = b := by
          rw [← hsplit, List.take_left]
        rw [List.take_add, hr]
      have hstep : fillBuf ⟨b, rest⟩ = (b, ⟨b, rest⟩) := by
        rw [hb]; rfl
      have hnolim : ¬ MAX_PARSE_BUF_LEN < (L.take c).length + b.length := by
        rw [hlent]; omega
      rw [parseBuffered, hstep]
      simp only [hbne, if_false, hnolim, if_false]
      by_cases hcomp : n ≤ c + b.length
      · have hP : P (L.take c ++ b) = .ok (.complete (n, v)) := by
          rw [htake]; exact hc _ hcomp (by omega)
        simp only [hP]
        have hamt : n - ((L.take c ++ b).length - b.length) = n - c := by
          simp [List.length_append, hlent]
        have hncr : n - c ≤ b.length := by omega
        refine ⟨_, rfl, ?_⟩
        rw [hamt]
        have hso : streamOf (consume ⟨b, rest⟩ (n - c)) = (b ++ rest.flatten).drop (n - c) := by
          simp [streamOf, consume, List.drop_append_of_le_length hncr]
        rw [hso, hsplit, List.drop_drop]
        congr 1
        omega
      · have hP : P (L.take c ++ b) = .ok .more := by
          rw [htake]; exact hn _ (by omega)
        simp only [hP]
        have hcons : consume ⟨b, rest⟩ b.length = ⟨[], rest⟩ := by
          simp [consume]
        rw [hcons, htake]
        apply ih ⟨[], rest⟩ (c + b.length)
        · have hfl : rest.flatten = (L.drop c).drop b.length := by
            rw [← hsplit, List.drop_left]
          rw [streamOf]
          simpa [List.drop_drop, Nat.add_comm] using hfl
        · exact hne
        · omega
        · change rest.length + 2 ≤ f + 1 at hfuel
          change rest.length + 1 ≤ f
          omega

/-- Core of the driver correctness for a reader whose current buffer is
nonempty (every reader shape reduces to this one or to the empty
reader). -/
theorem parse_core {T : Type} (P : List Nat → Except ZErr (PStatus T))
    (b : List Nat) (rest : List (List Nat)) (n : Nat) (v : T) (fuel : Nat)
    (hbne : b ≠ []) (hner : ∀ ch ∈ rest, ch ≠ [])
    (hn : ∀ m, m < n → P ((b ++ rest.flatten).take m) = .ok .more)
    (hc : ∀ m, n ≤ m → m ≤ (b ++ rest.flatten).length →
      P ((b ++ rest.flatten).take m) = .ok (.complete (n, v)))
    (hmax : (b ++ rest.flatten).length ≤ MAX_PARSE_BUF_LEN)
    (hlen : n ≤ (b ++ rest.flatten).length)
    (hfuel : rest.length + 2 ≤ fuel) :
    ∃ s2, parse P fuel ⟨b, rest⟩ = .ok (v, s2) ∧
      streamOf s2 = (b ++ rest.flatten).drop n := by
  have hstep : fillBuf ⟨b, rest⟩ = (b, ⟨b, rest⟩) := by
    cases b with
    | nil => exact absurd rfl hbne
    | cons x xs => rfl
  have hbtake : (b ++ rest.flatten).take b.length = b := List.take_left b _
  by_cases hfast : n ≤ b.length
  · have hbl : b.length ≤ (b ++ rest.flatten).length := by
      simp [List.length_append]
    have hP : P b = .ok (.complete (n, v)) := by
      have := hc b.length hfast hbl
      rwa [hbtake] at this
    rw [parse, hstep]
    simp only [hP]
    refine ⟨_, rfl, ?_⟩
    simp [streamOf, consume, List.drop_append_of_le_length hfast]
  · have hblt : b.length < n := lt_of_not_ge hfast
    have hP : P b = .ok .more := by
      have := hn b.length hblt
      rwa [hbtake] at this
    rw [parse, hstep]
    simp only [hP]
    obtain ⟨t2, ht2, hs2⟩ :=
      parseBuffered_completes P (b ++ rest.flatten) n v hn hc hmax hlen fuel
        ⟨b, rest⟩ 0 (by simp [streamOf]) hner (by omega)
        (by rw [if_neg hbne]; exact hfuel)
    exact ⟨t2, by simpa using ht2, hs2⟩

/-- C1: for every buffered reader and every pure parser that answers
Partial on prefixes strictly shorter than `n` and, once `n` bytes of the
reader's stream are available, answers `Complete((n, v))`, the parse
driver returns `v` and advances the reader's position by exactly `n`
bytes.  The statement quantifies over all reader shapes, so it covers
both the fast path (first fill already complete) and the buffered slow
path (accumulator grown over several fills). -/
theorem parse_driver_advances_exactly {T : Type}
    (P : List Nat → Except ZErr (PStatus T)) (s : BufState) (n : Nat) (v : T)
    (fuel : Nat)
    (hne : ∀ ch ∈ s.rest, ch ≠ [])
    (hn : ∀ m, m < n → P ((streamOf s).take m) = .ok .more)
    (hc : ∀ m, n ≤ m → m ≤ (streamOf s).length →
      P ((streamOf s).take m) = .ok (.complete (n, v)))
    (hlen : n ≤ (streamOf s).length)
    (hmax : (streamOf s).length ≤ MAX_PARSE_BUF_LEN)
    (hfuel : readerFuel s ≤ fuel) :
    ∃ s2, parse P fuel s = .ok (v, s2) ∧
      streamOf s2 = (streamOf s).drop n ∧
      (streamOf s2).length + n = (streamOf s).length := by
  obtain ⟨cur, rest⟩ := s
  cases cur with
  | cons a as =>
    simp only [streamOf] at hn hc hlen hmax
    obtain ⟨s2, hp, hs2⟩ :=
      parse_core P (a :: as) rest n v fuel (by simp) hne hn hc hmax hlen
        (by change rest.length + 2 ≤ fuel at hfuel; exact hfuel)
    refine ⟨s2, hp, hs2, ?_⟩
    have hso : streamOf ⟨a :: as, rest⟩ = a :: as ++ rest.flatten := rfl
    rw [hs2, hso]
    simp only [List.length_drop]
    omega
  | nil =>
    cases rest with
    | nil =>
      have hn0 : n = 0 := by
        have : (streamOf ⟨[], []⟩).length = 0 := rfl
        omega
      subst hn0
      have hP : P [] = .ok (.complete (0, v)) := by
        have := hc 0 (le_refl 0) (by simp)
        simpa using this
      refine ⟨⟨[], []⟩, ?_, by simp, by simp⟩
      rw [parse]
      have hstep : fillBuf ⟨[], []⟩ = ([], ⟨[], []⟩) := rfl
      rw [hstep]
      simp only [hP]
      rfl
    | cons r rs =>
      have hrne : r ≠ [] := hne r (List.mem_cons_self r rs)
      have hrw : streamOf ⟨[], r :: rs⟩ = r ++ rs.flatten := by
        simp [streamOf]
      rw [hrw] at hn hc hlen hmax
      have hpp : parse P fuel ⟨[], r :: rs⟩ = parse P fuel ⟨r, rs⟩ := by
        cases r with
        | nil => exact absurd rfl hrne
        | cons x xs => rfl
      obtain ⟨s2, hp, hs2⟩ :=
        parse_core P r rs n v fuel hrne
          (fun ch hch => hne ch (List.mem_cons_of_mem r hch)) hn hc hmax hlen
          (by change (r :: rs).length + 2 ≤ fuel at hfuel; simp at hfuel; omega)
      refine ⟨s2, by rw [hpp]; exact hp, by rw [hrw]; exact hs2, ?_⟩
    
      rw [hrw, hs2]
      simp only [List.length_drop]
      omega

/-- Concrete run of the driver theorem: a parser that needs two bytes,
exercised on a reader whose first fill holds only one. -/
theorem parse_driver_advances_exactly_witness :
    ∃ s2, parse
        (fun l => if 2 ≤ l.length then .ok (.complete (2, 99))
          else (.ok .more : Except ZErr (PStatus Nat))) 3 ⟨[7], [[8, 9]]⟩
        = .ok (99, s2) ∧
      streamOf s2 = (streamOf ⟨[7], [[8, 9]]⟩).drop 2 ∧
      (streamOf s2).length + 2 = (streamOf ⟨[7], [[8, 9]]⟩).length :=
  parse_driver_advances_exactly
    (fun l => if 2 ≤ l.length then .ok (.complete (2, 99))
      else (.ok .more : Except ZErr (PStatus Nat)))
    ⟨[7], [[8, 9]]⟩ 2 99 3
    (by decide)
    (by intro m hm; interval_cases m <;> rfl)
    (by
      intro m h1 h2
      have h3 : m ≤ 3 := by simpa using h2
      interval_cases m <;> rfl)
    (by decide)
    (by decide)
    (by decide)

/-- When the parser keeps answering `more` on every available prefix, the
cold loop exhausts the reader and fails with `UnexpectedEof`. -/
theorem parseBuffered_eof {T : Type} (P : List Nat → Except ZErr (PStatus T))
    (L : List Nat)
    (hmore : ∀ m, m ≤ L.length → P (L.take m) = .ok .more)
    (hmax : L.length ≤ MAX_PARSE_BUF_LEN) (fuel : Nat) :
    ∀ t c, streamOf t = L.drop c → (∀ ch ∈ t.rest, ch ≠ []) → c ≤ L.length →
      t.rest.length + (if t.cur = [] then 1 else 2) ≤ fuel →
      parseBuffered P fuel t (L.take c) = .error .unexpectedEof := by
  induction fuel with
  | zero =>
    intro t c _ _ _ hfuel
    exfalso
    rcases t with ⟨cur, rest⟩
    cases cur <;> simp at hfuel
  | succ f ih =>
    intro t c hstream hne hcL hfuel
    have hlent : (L.take c).length = c := by
      rw [List.length_take]; omega
    obtain ⟨cur, rest⟩ := t
    cases cur with
    | nil =>
      cases rest with
      | nil =>
        rw [parseBuffered]
        rfl
      | cons r rs =>
        have hbne : r ≠ [] := hne r (List.mem_cons_self r rs)
        have hsplit : r ++ rs.flatten = L.drop c := by
          simpa [streamOf] using hstream
        have hble : r.length + rs.flatten.length = L.length - c := by
          have := congrArg List.length hsplit
          simpa [List.length_append, List.length_drop] using this
        have htake : L.take c ++ r = L.take (c + r.length) := by
          have hr : (L.drop c).take r.length = r := by
            rw [← hsplit, List.take_left]
          rw [List.take_add, hr]
        have hb1 : 1 ≤ r.length := List.length_pos.2 hbne
        have hstep : fillBuf ⟨[], r :: rs⟩ = (r, ⟨r, rs⟩) := rfl
        have hnolim : ¬ MAX_PARSE_BUF_LEN < (L.take c).length + r.length := by
          rw [hlent]; omega
        rw [parseBuffered, hstep]
        simp only [hbne, if_false, hnolim, if_false]
        have hP : P (L.take c ++ r) = .ok .more := by
          rw [htake]; exact hmore _ (by omega)
        simp only [hP]
        have hcons : consume ⟨r, rs⟩ r.length = ⟨[], rs⟩ := by
          simp [consume]
        rw [hcons, htake]
        apply ih ⟨[], rs⟩ (c + r.length)
        · have hfl : rs.flatten = (L.drop c).drop r.length := by
            rw [← hsplit, List.drop_left]
          rw [streamOf]
          simpa [List.drop_drop, Nat.add_comm] using hfl
        · exact fun ch hch => hne ch (List.mem_cons_of_mem r hch)
        · omega
        · change rs.length + 1 + 1 ≤ f + 1 at hfuel
          change rs.length + 1 ≤ f
          omega
    | cons a as =>
      set b : List Nat := a :: as with hb
      have hbne : b ≠ [] := by rw [hb]; simp
      have hb1 : 1 ≤ b.length := List.length_pos.2 hbne
      have hsplit : b ++ rest.flatten = L.drop c := by
        simpa [streamOf] using hstream
      have hble : b.length + rest.flatten.length = L.length - c := by
        have := congrArg List.length hsplit
        simpa [List.length_append, List.length_drop] using this
      have htake : L.take c ++ b = L.take (c + b.length) := by
        have hr : (L.drop c).take b.length = b := by
          rw [← hsplit, List.take_left]
        rw [List.take_add, hr]
      have hstep : fillBuf ⟨b, rest⟩ = (b, ⟨b, rest⟩) := by
        rw [hb]; rfl
      have hnolim : ¬ MAX_PARSE_BUF_LEN < (L.take c).length + b.length := by
        rw [hlent]; omega
      rw [parseBuffered, hstep]
      simp only [hbne, if_false, hnolim, if_false]
      have hP : P (L.take c ++ b) = .ok .more := by
        rw [htake]; exact hmore _ (by omega)
      simp only [hP]
      have hcons : consume ⟨b, rest⟩ b.length = ⟨[], rest⟩ := by
        simp [consume]
      rw [hcons, htake]
      apply ih ⟨[], rest⟩ (c + b.length)
      · have hfl : rest.flatten = (L.drop c).drop b.length := by
          rw [← hsplit, List.drop_left]
        rw [streamOf]
        simpa [List.drop_drop, Nat.add_comm] using hfl
      · exact hne
      · omega
      · change rest.length + 2 ≤ f + 1 at hfuel
        change rest.length + 1 ≤ f
        omega

/-- When the parser keeps answering `more` within the buffer limit and
the stream is longer than the limit, the cold loop fails with the
buffer-limit error before the accumulator could exceed it. -/
theorem parseBuffered_limit {T : Type} (P : List Nat → Except ZErr (PStatus T))
    (L : List Nat)
    (hmore : ∀ m, m ≤ MAX_PARSE_BUF_LEN → P (L.take m) = .ok .more)
    (hbig : MAX_PARSE_BUF_LEN < L.length) (fuel : Nat) :
    ∀ t c, streamOf t = L.drop c → (∀ ch ∈ t.rest, ch ≠ []) →
      c ≤ MAX_PARSE_BUF_LEN →
      t.rest.length + (if t.cur = [] then 1 else 2) ≤ fuel →
      parseBuffered P fuel t (L.take c) = .error .maxParseBuf := by
  induction fuel with
  | zero =>
    intro t c _ _ _ hfuel
    exfalso
    rcases t with ⟨cur, rest⟩
    cases cur <;> simp at hfuel
  | succ f ih =>
    intro t c hstream hne hcM hfuel
    have hcL : c ≤ L.length := by omega
    have hlent : (L.take c).length = c := by
      rw [List.length_take]; omega
    obtain ⟨cur, rest⟩ := t
    cases cur with
    | nil =>
      cases rest with
      | nil =>
        exfalso
        have hLc : L.drop c = [] := by
          rw [← hstream]; rfl
        have := congrArg List.length hLc
        simp [List.length_drop] at this
        omega
      | cons r rs =>
        have hbne : r ≠ [] := hne r (List.mem_cons_self r rs)
        have hb1 : 1 ≤ r.length := List.length_pos.2 hbne
        have hsplit : r ++ rs.flatten = L.drop c := by
          simpa [streamOf] using hstream
        have hble : r.length + rs.flatten.length = L.length - c := by
          have := congrArg List.length hsplit
          simpa [List.length_append, List.length_drop] using this
        have htake : L.take c ++ r = L.take (c + r.length) := by
          have hr : (L.drop c).take r.length = r := by
            rw [← hsplit, List.take_left]
          rw [List.take_add, hr]
        have hstep : fillBuf ⟨[], r :: rs⟩ = (r, ⟨r, rs⟩) := rfl
        rw [parseBuffered, hstep]
        simp only [hbne, if_false]
        by_cases hlim : MAX_PARSE_BUF_LEN < (L.take c).length + r.length
        · rw [if_pos hlim]
        · rw [if_neg hlim]
          rw [hlent] at hlim
          have hP : P (L.take c ++ r) = .ok .more := by
            rw [htake]; exact hmore _ (by omega)
          simp only [hP]
          have hcons : consume ⟨r, rs⟩ r.length = ⟨[], rs⟩ := by
            simp [consume]
          rw [hcons, htake]
          apply ih ⟨[], rs⟩ (c + r.length)
          · have hfl : rs.flatten = (L.drop c).drop r.length := by
              rw [← hsplit, List.drop_left]
            rw [streamOf]
            simpa [List.drop_drop, Nat.add_comm] using hfl
          · exact fun ch hch => hne ch (List.mem_cons_of_mem r hch)
          · omega
          · change rs.length + 1 + 1 ≤ f + 1 at hfuel
            change rs.length + 1 ≤ f
            omega
    | cons a as =>
      set b : List Nat := a :: as with hb
      have hbne : b ≠ [] := by rw [hb]; simp
      have hb1 : 1 ≤ b.length := List.length_pos.2 hbne
      have hsplit : b ++ rest.flatten = L.drop c := by
        simpa [streamOf] using hstream
      have hble : b.length + rest.flatten.length = L.length - c := by
        have := congrArg List.length hsplit
        simpa [List.length_append, List.length_drop] using this
      have htake : L.take c ++ b = L.take (c + b.length) := by
        have hr : (L.drop c).take b.length = b := by
          rw [← hsplit, List.take_left]
        rw [List.take_add, hr]
      have hstep : fillBuf ⟨b, rest⟩ = (b, ⟨b, rest⟩) := by
        rw [hb]; rfl
      rw [parseBuffered, hstep]
      simp only [hbne, if_false]
      by_cases hlim : MAX_PARSE_BUF_LEN < (L.take c).length + b.length
      · rw [if_pos hlim]
      · rw [if_neg hlim]
        rw [hlent] at hlim
        have hP : P (L.take c ++ b) = .ok .more := by
          rw [htake]; exact hmore _ (by omega)
        simp only [hP]
        have hcons : consume ⟨b, rest⟩ b.length = ⟨[], rest⟩ := by
          simp [consume]
        rw [hcons, htake]
        apply ih ⟨[], rest⟩ (c + b.length)
        · have hfl : rest.flatten = (L.drop c).drop b.length := by
            rw [← hsplit, List.drop_left]
          rw [streamOf]
          simpa [List.drop_drop, Nat.add_comm] using hfl
        · exact hne
        · omega
        · change rest.length + 2 ≤ f + 1 at hfuel
          change rest.length + 1 ≤ f
          omega

/-- The instrumented loop computes the same result as the real one. -/
theorem parseBufferedAcc_fst {T : Type} (P : List Nat → Except ZErr (PStatus T)) :
    ∀ fuel t buf1, (parseBufferedAcc P fuel t buf1).1 = parseBuffered P fuel t buf1 := by
  intro fuel
  induction fuel with
  | zero => intro t b; rfl
  | succ f ih =>
    intro t b
    rw [parseBufferedAcc, parseBuffered]
    rcases hfb : fillBuf t with ⟨buf, s1⟩
    by_cases hb : buf = []
    · simp [hb]
    · simp only [hb, if_false]
      by_cases hl : MAX_PARSE_BUF_LEN < b.length + buf.length
      · simp [hl]
      · simp only [hl, if_false]
        rcases hP : P (b ++ buf) with e | st
        · rfl
        · rcases st with ⟨parsed, val⟩ | _
          · rfl
          · simp only []
            rcases hr : parseBufferedAcc P f (consume s1 buf.length) (b ++ buf) with ⟨res, m⟩
            have := ih (consume s1 buf.length) (b ++ buf)
            rw [hr] at this
            exact this

/-- The instrumented loop never lets the accumulator pass the limit. -/
theorem parseBufferedAcc_bound {T : Type} (P : List Nat → Except ZErr (PStatus T)) :
    ∀ fuel t buf1, buf1.length ≤ MAX_PARSE_BUF_LEN →
      (parseBufferedAcc P fuel t buf1).2 ≤ MAX_PARSE_BUF_LEN := by
  intro fuel
  induction fuel with
  | zero => intro t b _; exact Nat.zero_le _
  | succ f ih =>
    intro t b hb1
    rw [parseBufferedAcc]
    rcases hfb : fillBuf t with ⟨buf, s1⟩
    by_cases hb : buf = []
    · simp [hb]
    · simp only [hb, if_false]
      by_cases hl : MAX_PARSE_BUF_LEN < b.length + buf.length
      · simp [hl]
      · simp only [hl, if_false]
        have hlen2 : (b ++ buf).length ≤ MAX_PARSE_BUF_LEN := by
          rw [List.length_append]; omega
        rcases hP : P (b ++ buf) with e | st
        · simpa using hlen2
        · rcases st with ⟨parsed, val⟩ | _
          · simpa using hlen2
          · simp only []
            rcases hr : parseBufferedAcc P f (consume s1 buf.length) (b ++ buf) with ⟨res, m⟩
            have hm := ih (consume s1 buf.length) (b ++ buf) hlen2
            rw [hr] at hm
            simp only [] at hm ⊢
            exact max_le hlen2 hm

/-- C6: on the buffered slow path (entered, as in the source, with an
empty accumulator) the driver fails with `UnexpectedEof` when the reader
runs dry before the parser completes, fails with the buffer-limit error
when completion would need more than `MAX_PARSE_BUF_LEN` bytes, the
accumulator it feeds to the parser never exceeds that bound, and the
bound is `MAX_HEADERS * 1024` bytes with `MAX_HEADERS` in `64..=128`. -/
theorem parse_buffered_eof_limit_and_bound {T : Type}
    (P : List Nat → Except ZErr (PStatus T)) (s : BufState) (fuel : Nat)
    (hne : ∀ ch ∈ s.rest, ch ≠ [])
    (hfuel : readerFuel s ≤ fuel) :
    ((∀ m, m ≤ (streamOf s).length → P ((streamOf s).take m) = .ok .more) →
      (streamOf s).length ≤ MAX_PARSE_BUF_LEN →
      parseBuffered P fuel s [] = .error .unexpectedEof) ∧
    ((∀ m, m ≤ MAX_PARSE_BUF_LEN → P ((streamOf s).take m) = .ok .more) →
      MAX_PARSE_BUF_LEN < (streamOf s).length →
      parseBuffered P fuel s [] = .error .maxParseBuf) ∧
    (∀ buf1, buf1.length ≤ MAX_PARSE_BUF_LEN →
      (parseBufferedAcc P fuel s buf1).2 ≤ MAX_PARSE_BUF_LEN ∧
      (parseBufferedAcc P fuel s buf1).1 = parseBuffered P fuel s buf1) ∧
    MAX_PARSE_BUF_LEN = MAX_HEADERS * 1024 ∧ 64 ≤ MAX_HEADERS ∧ MAX_HEADERS ≤ 128 := by
  have hfuel2 : s.rest.length + (if s.cur = [] then 1 else 2) ≤ fuel := by
    rw [readerFuel] at hfuel
    split <;> omega
  refine ⟨?_, ?_, ?_, rfl, by decide, by decide⟩
  · intro hmore hmax
    have h0 : ((streamOf s).take 0) = [] := rfl
    have := parseBuffered_eof P (streamOf s) hmore hmax fuel s 0
      (by simp) hne (Nat.zero_le _) hfuel2
    simpa using this
  · intro hmore hbig
    have := parseBuffered_limit P (streamOf s) hmore hbig fuel s 0
      (by simp) hne (Nat.zero_le _) hfuel2
    simpa using this
  · intro buf1 hb1
    exact ⟨parseBufferedAcc_bound P fuel s buf1 hb1, parseBufferedAcc_fst P fuel s buf1⟩

/-- Concrete runs of the slow-path failure theorem: a never-completing
parser on a short stream hits `UnexpectedEof`, on an over-long stream it
hits the buffer-limit error, and the instrumented accumulator stays in
bounds. -/
theorem parse_buffered_eof_limit_and_bound_witness :
    parseBuffered (fun _ => (.ok .more : Except ZErr (PStatus Nat))) 2 ⟨[5], []⟩ []
        = .error .unexpectedEof ∧
    parseBuffered (fun _ => (.ok .more : Except ZErr (PStatus Nat))) 2
        ⟨List.replicate 131073 0, []⟩ [] = .error .maxParseBuf ∧
    (parseBufferedAcc (fun _ => (.ok .more : Except ZErr (PStatus Nat))) 2
        ⟨[5], []⟩ []).2 ≤ MAX_PARSE_BUF_LEN :=
  ⟨(parse_buffered_eof_limit_and_bound (fun _ => .ok .more) ⟨[5], []⟩ 2
      (by decide) (by decide)).1 (fun m _ => rfl) (by decide),
   (parse_buffered_eof_limit_and_bound (fun _ => .ok .more)
      ⟨List.replicate 131073 0, []⟩ 2 (by decide) (by decide)).2.1
      (fun m _ => rfl)
      (by
        have h : streamOf ⟨List.replicate 131073 0, []⟩
            = List.replicate 131073 0 ++ [] := rfl
        rw [h, List.length_append, List.length_replicate, List.length_nil,
          MAX_PARSE_BUF_LEN, MAX_HEADERS]
        omega),
   ((parse_buffered_eof_limit_and_bound (fun _ => .ok .more) ⟨[5], []⟩ 2
      (by decide) (by decide)).2.2.1 [] (by decide)).1⟩

/-- One hexadecimal digit as its lowercase ASCII code (as produced by
the `{:x}` formatter used by `ChunkedWriter::write`). -/
def hexChar (d : Nat) : Nat :=
  if d < 10 then 48 + d else 97 + (d - 10)

/-- Classify an ASCII code as a hexadecimal digit, accepting the digits
and both letter cases as the external chunk-size parser does. -/
def fromHexDigit (c : Nat) : Option Nat :=
  if 48 ≤ c ∧ c ≤ 57 then some (c - 48)
  else if 97 ≤ c ∧ c ≤ 102 then some (c - 87)
  else if 65 ≤ c ∧ c ≤ 70 then some (c - 55)
  else none

/-- Lowercase hexadecimal digit string of `n`, empty for zero. -/
def hexStr : Nat → List Nat
  | 0 => []
  | n + 1 => hexStr ((n + 1) / 16) ++ [hexChar ((n + 1) % 16)]
decreasing_by exact Nat.div_lt_self (Nat.succ_pos n) (by omega)

/-- Model of the `{:x}` formatter: lowercase hex without leading zeros,
a single `0` for zero. -/
def toHex (n : Nat) : List Nat :=
  if n = 0 then [48] else hexStr n

/-- Bytes emitted by `ChunkedWriter::write` for one buffer: the length
in hex, CRLF, the payload, CRLF. -/
def chunked_write (buf : List Nat) : List Nat :=
  toHex buf.length ++ [13, 10] ++ buf ++ [13, 10]

/-- Bytes emitted by `ChunkedWriter::close`: the terminator `0CRLFCRLF`. -/
def chunked_close : List Nat := [48, 13, 10, 13, 10]

/-- Modelled from the spec: tail state of the external
`httparse::parse_chunk_size` after the CR, expecting the LF. -/
def pcsLF (l : List Nat) (pos size : Nat) : Except ZErr (PStatus Nat) :=
  match l with
  | [] => .ok .more
  | c :: _ => if c = 10 then .ok (.complete (pos + 1, size)) else .error .invalidChunkSize

/-- Modelled from the spec: extension state of the external
`httparse::parse_chunk_size`; everything after `;` up to the CR is
ignored. -/
def pcsExt : List Nat → Nat → Nat → Except ZErr (PStatus Nat)
  | [], _, _ => .ok .more
  | c :: cs, pos, size =>
    if c = 13 then pcsLF cs (pos + 1) size else pcsExt cs (pos + 1) size

/-- Modelled from the spec: size state of the external
`httparse::parse_chunk_size`: hex digits accumulate the size, `;`
starts an ignored extension, CRLF ends the line, anything else is an
invalid chunk size. -/
def pcsSize : List Nat → Nat → Nat → Except ZErr (PStatus Nat)
  | [], _, _ => .ok .more
  | c :: cs, pos, size =>
    match fromHexDigit c with
    | some d => pcsSize cs (pos + 1) (16 * size + d)
    | none =>
      if c = 13 then pcsLF cs (pos + 1) size
      else if c = 59 then pcsExt cs (pos + 1) size
      else .error .invalidChunkSize

/-- Modelled from the spec: the external `httparse::parse_chunk_size`,
wrapped exactly as the closure in `read_chunk_size` of `chunked.rs`
wraps it (sizes are natural numbers here, so the `try_into` of the
source is the identity). -/
def parse_chunk_size (buf : List Nat) : Except ZErr (PStatus Nat) :=
  pcsSize buf 0 0

/-- The little pure parser inside `read_line_ending` of `chunked.rs`:
Complete(2) on a leading CRLF, Partial on `""` or `"\r"`, otherwise the
invalid-line-ending error. -/
def lineEnding (buf : List Nat) : Except ZErr (PStatus Unit) :=
  match buf with
  | 13 :: 10 :: _ => .ok (.complete (2, ()))
  | [] => .ok .more
  | [13] => .ok .more
  | _ => .error .invalidLineEnding

/-- Decoder state of `ChunkedReader`, as in `chunked.rs`. -/
inductive CState where
  | init
  | next
  | done
deriving DecidableEq, Repr

/-- Model of `ChunkedReader`: the underlying buffered reader, the
remaining byte count of the current chunk, and the decoder state. -/
structure CReader where
  reader : BufState
  rem : Nat
  state : CState
deriving DecidableEq, Repr

/-- Model of `read_chunk_size` of `chunked.rs`: drive the parse driver
with the external chunk-size parser. -/
def read_chunk_size (u : BufState) : Except ZErr (Nat × BufState) :=
  parse parse_chunk_size (readerFuel u) u

/-- Model of `read_line_ending` of `chunked.rs`. -/
def read_line_ending (u : BufState) : Except ZErr (Unit × BufState) :=
  parse lineEnding (readerFuel u) u

/-- Head part of `ChunkedReader::fill_buf`: when the current chunk is
exhausted and the decoder is not done, consume the previous chunk's
trailing CRLF (or leave `Init`), parse the next chunk-size line, and on
a zero size consume the final CRLF and move to `Done`. -/
def crPrep (r : CReader) : Except ZErr CReader :=
  if r.rem ≠ 0 ∨ r.state = CState.done then .ok r
  else do
    let u1 ←
      if r.state = CState.init then pure r.reader
      else do
        let p ← read_line_ending r.reader
        pure p.2
    let q ← read_chunk_size u1
    if q.1 = 0 then do
      let p2 ← read_line_ending q.2
      pure ⟨p2.2, 0, CState.done⟩
    else pure ⟨q.2, q.1, CState.next⟩

/-- Model of `ChunkedReader::fill_buf`: after the head part, expose the
underlying fill clipped to the current chunk's remainder. -/
def crFillBuf (r : CReader) : Except ZErr (List Nat × CReader) := do
  let r1 ← crPrep r
  let fb := fillBuf r1.reader
  let buf := if r1.rem < fb.1.length then fb.1.take r1.rem else fb.1
  .ok (buf, ⟨fb.2, r1.rem, r1.state⟩)

/-- Model of `ChunkedReader::consume`: clamp to the chunk remainder,
consume that much from the underlying reader and from the remainder. -/
def crConsume (r : CReader) (amt : Nat) : CReader :=
  let a := if r.rem < amt then r.rem else amt
  ⟨consume r.reader a, r.rem - a, r.state⟩

/-- Model of `Read::read_to_end` over the decoder: repeatedly `fill_buf`
(taking everything exposed) and `consume` until a fill comes back empty;
returns the decoded bytes and the final decoder state. -/
def crDrain : Nat → CReader → List Nat → Except ZErr (List Nat × CReader)
  | 0, _, _ => .error .outOfFuel
  | fuel + 1, r, acc => do
    let p ← crFillBuf r
    if p.1 = [] then .ok (acc, p.2)
    else crDrain fuel (crConsume p.2 p.1.length) (acc ++ p.1)

/-- Value of a digit string under the left fold the size state of the
chunk-size scanner performs. -/
def hexVal (l : List Nat) (init : Nat) : Nat :=
  l.foldl (fun s c => 16 * s + (fromHexDigit c).getD 0) init

theorem fillBuf_cons (l : List Nat) (rs : List (List Nat)) (h : l ≠ []) :
    fillBuf ⟨l, rs⟩ = (l, ⟨l, rs⟩) := by
  cases l with
  | nil => exact absurd rfl h
  | cons x xs => rfl

theorem fromHexDigit_hexChar : ∀ d, d < 16 → fromHexDigit (hexChar d) = some d := by
  decide

theorem pcsSize_digits (tail : List Nat) :
    ∀ l pos size, (∀ c ∈ l, (fromHexDigit c).isSome) →
      pcsSize (l ++ 13 :: 10 :: tail) pos size
        = .ok (.complete (pos + l.length + 2, hexVal l size)) := by
  intro l
  induction l with
  | nil => intro pos size _; rfl
  | cons c cs ih =>
    intro pos size hdig
    have hc : (fromHexDigit c).isSome := hdig c (List.mem_cons_self c cs)
    obtain ⟨d, hd⟩ := Option.isSome_iff_exists.1 hc
    rw [List.cons_append, pcsSize]
    simp only [hd]
    have hrec := ih (pos + 1) (16 * size + d) (fun x hx => hdig x (List.mem_cons_of_mem c hx))
    have hval : hexVal (c :: cs) size = hexVal cs (16 * size + d) := by
      simp [hexVal, List.foldl_cons, hd]
    have harith : pos + 1 + cs.length + 2 = pos + (c :: cs).length + 2 := by
      simp only [List.length_cons]; omega
    rw [hval, ← harith]
    exact hrec

theorem hexStr_digits : ∀ n, ∀ c ∈ hexStr n, (fromHexDigit c).isSome := by
  intro n
  induction n using Nat.strong_induction_on with
  | _ n ih =>
    match n with
    | 0 => intro c hc; simp [hexStr] at hc
    | m + 1 =>
      intro c hc
      rw [hexStr] at hc
      rcases List.mem_append.1 hc with h | h
      · exact ih ((m + 1) / 16) (Nat.div_lt_self (Nat.succ_pos m) (by omega)) c h
      · rw [List.mem_singleton] at h
        subst h
        have hm : (m + 1) % 16 < 16 := Nat.mod_lt _ (by omega)
        rw [fromHexDigit_hexChar _ hm]
        rfl

theorem hexVal_hexStr : ∀ n, hexVal (hexStr n) 0 = n := by
  intro n
  induction n using Nat.strong_induction_on with
  | _ n ih =>
    match n with
    | 0 => simp [hexStr, hexVal]
    | m + 1 =>
      rw [hexStr, hexVal, List.foldl_append]
      have hrec := ih ((m + 1) / 16) (Nat.div_lt_self (Nat.succ_pos m) (by omega))
      rw [hexVal] at hrec
      rw [hrec]
      have hm : (m + 1) % 16 < 16 := Nat.mod_lt _ (by omega)
      simp [fromHexDigit_hexChar _ hm]
      omega

theorem toHex_digits (n : Nat) : ∀ c ∈ toHex n, (fromHexDigit c).isSome := by
  rw [toHex]
  by_cases h : n = 0
  · subst h; intro c hc; simp at hc; subst hc; rfl
  · rw [if_neg h]; exact hexStr_digits n

theorem hexVal_toHex (n : Nat) : hexVal (toHex n) 0 = n := by
  rw [toHex]
  by_cases h : n = 0
  · subst h; rfl
  · rw [if_neg h]; exact hexVal_hexStr n

theorem toHex_ne_nil (n : Nat) : toHex n ≠ [] := by
  rw [toHex]
  by_cases h : n = 0
  · simp [h]
  · rw [if_neg h]
    match n, h with
    | m + 1, _ =>
      rw [hexStr]
      simp

theorem parse_chunk_size_toHex (n : Nat) (tail : List Nat) :
    parse_chunk_size (toHex n ++ 13 :: 10 :: tail)
      = .ok (.complete ((toHex n).length + 2, n)) := by
  rw [parse_chunk_size, pcsSize_digits tail (toHex n) 0 0 (toHex_digits n)]
  rw [show hexVal (toHex n) 0 = n from hexVal_toHex n]
  rw [Nat.zero_add]

/-- Running the parse driver with the chunk-size parser over a reader
whose single buffer starts with a hex size line consumes exactly that
line. -/
theorem read_chunk_size_run (n : Nat) (tail : List Nat) (f : Nat) :
    parse parse_chunk_size f ⟨toHex n ++ 13 :: 10 :: tail, []⟩
      = .ok (n, ⟨tail, []⟩) := by
  rw [parse, fillBuf_cons _ _ (by simp [toHex_ne_nil])]
  simp only [parse_chunk_size_toHex]
  simp only [consume]
  rw [List.drop_append 2]
  rfl

theorem chunked_write_ne_nil (C : List Nat) : chunked_write C ≠ [] := by
  simp [chunked_write, toHex_ne_nil]

theorem crPrep_first (B : List Nat) (hB : B ≠ []) :
    crPrep ⟨⟨chunked_write B ++ chunked_close, []⟩, 0, .init⟩
      = .ok ⟨⟨B ++ 13 :: 10 :: chunked_close, []⟩, B.length, .next⟩ := by
  have hshape : chunked_write B ++ chunked_close
      = toHex B.length ++ 13 :: 10 :: (B ++ 13 :: 10 :: chunked_close) := by
    simp [chunked_write, chunked_close]
  have hq : read_chunk_size ⟨chunked_write B ++ chunked_close, []⟩
      = .ok (B.length, ⟨B ++ 13 :: 10 :: chunked_close, []⟩) := by
    rw [read_chunk_size, hshape]
    exact read_chunk_size_run B.length _ _
  have hlenB : B.length ≠ 0 := by
    simpa [List.length_eq_zero] using hB
  rw [crPrep]
  rw [if_neg (by simp)]
  simp [hq, hlenB, Bind.bind, Except.bind, pure, Except.pure]

theorem crFillBuf_first (B : List Nat) (hB : B ≠ []) :
    crFillBuf ⟨⟨chunked_write B ++ chunked_close, []⟩, 0, .init⟩
      = .ok (B, ⟨⟨B ++ 13 :: 10 :: chunked_close, []⟩, B.length, .next⟩) := by
  rw [crFillBuf]
  simp only [crPrep_first B hB, Bind.bind, Except.bind]
  rw [fillBuf_cons _ _ (by simp [hB])]
  have hlt : B.length < (B ++ 13 :: 10 :: chunked_close).length := by
    rw [List.length_append]
    simp [chunked_close]
  rw [if_pos hlt, List.take_left]

theorem crDrain_last (acc : List Nat) :
    crDrain 1 ⟨⟨13 :: 10 :: chunked_close, []⟩, 0, .next⟩ acc
      = .ok (acc, ⟨⟨[], []⟩, 0, .done⟩) := rfl

/-- C2: chunked codec round trip.  Encoding any byte sequence `B` with
one `ChunkedWriter::write` followed by `close()` and decoding the
produced bytes with `ChunkedReader` yields exactly `B`; the decoder ends
in the `Done` state at the terminating zero-size chunk and reports end
of file (an empty fill) from there on. -/
theorem chunked_roundtrip (B : List Nat) :
    ∃ rf, crDrain 2 ⟨⟨chunked_write B ++ chunked_close, []⟩, 0, .init⟩ []
        = .ok (B, rf) ∧ rf.state = .done ∧ crFillBuf rf = .ok ([], rf) := by
  cases B with
  | nil =>
    exact ⟨⟨⟨[48, 13, 10, 13, 10], []⟩, 0, .done⟩, rfl, rfl, rfl⟩
  | cons b bs =>
    have hB : (b :: bs : List Nat) ≠ [] := by simp
    refine ⟨⟨⟨[], []⟩, 0, .done⟩, ?_, rfl, rfl⟩
    rw [crDrain]
    simp only [crFillBuf_first _ hB, Bind.bind, Except.bind]
    rw [if_neg hB]
    have hcons : crConsume ⟨⟨(b :: bs) ++ 13 :: 10 :: chunked_close, []⟩,
        (b :: bs).length, .next⟩ (b :: bs).length
        = ⟨⟨13 :: 10 :: chunked_close, []⟩, 0, .next⟩ := by
      rw [crConsume]
      simp [consume, List.drop_left]
    rw [hcons, crDrain_last]
    simp

/-- C9: writing an empty buffer through the chunked encoder emits
exactly the terminator bytes `0CRLFCRLF`, byte-identical to what
`close()` writes; consequently a decoder reading the output of an empty
write, a further chunk and the close terminator stops at the first
zero-size marker and decodes the empty body, the later chunk never being
part of it. -/
theorem chunked_empty_write_is_terminator (C : List Nat) :
    chunked_write [] = chunked_close ∧
    ∃ rf, crDrain 2
        ⟨⟨chunked_write [] ++ chunked_write C ++ chunked_close, []⟩, 0, .init⟩ []
        = .ok ([], rf) ∧ rf.state = .done := by
  have hprep : crPrep ⟨⟨chunked_write [] ++ chunked_write C ++ chunked_close, []⟩,
      0, .init⟩ = .ok ⟨⟨chunked_write C ++ chunked_close, []⟩, 0, .done⟩ := rfl
  have hne2 : chunked_write C ++ chunked_close ≠ [] := by
    simp [chunked_write_ne_nil]
  have h1 : crFillBuf ⟨⟨chunked_write [] ++ chunked_write C ++ chunked_close, []⟩,
      0, .init⟩ = .ok ([], ⟨⟨chunked_write C ++ chunked_close, []⟩, 0, .done⟩) := by
    rw [crFillBuf]
    simp only [hprep, Bind.bind, Except.bind]
    rw [fillBuf_cons _ _ hne2]
    rw [if_pos (List.length_pos.2 hne2), List.take_zero]
  refine ⟨rfl, ⟨⟨⟨chunked_write C ++ chunked_close, []⟩, 0, .done⟩, ?_, rfl⟩⟩
  rw [crDrain]
  simp only [h1, Bind.bind, Except.bind]
  simp

/-- C10: `ChunkedReader` invariants.  A successful `fill_buf` never
exposes more bytes than the (updated) remaining counter of the current
chunk, so a single buffered read never crosses a chunk boundary; and
`consume(amt)` decreases the counter by exactly `min amt rem` — the
clamp in the source makes the subtraction exact, so the counter never
underflows — while consuming the same clamped amount from the
underlying reader. -/
theorem chunked_reader_invariants (r : CReader) (amt : Nat) :
    (∀ buf r', crFillBuf r = .ok (buf, r') → buf.length ≤ r'.rem) ∧
    (crConsume r amt).rem + min amt r.rem = r.rem ∧
    (crConsume r amt).reader = consume r.reader (min amt r.rem) := by
  have ham : (if r.rem < amt then r.rem else amt) = min amt r.rem := by
    rcases Nat.lt_or_ge r.rem amt with h | h
    · rw [if_pos h]; omega
    · rw [if_neg (not_lt.2 h)]; omega
  refine ⟨?_, ?_, ?_⟩
  · intro buf r' hok
    rcases hp : crPrep r with e | r1
    · rw [crFillBuf, hp] at hok
      simp [Bind.bind, Except.bind] at hok
    · rw [crFillBuf, hp] at hok
      simp only [Bind.bind, Except.bind] at hok
      have h2 := Except.ok.inj hok
      have hbuf := congrArg Prod.fst h2
      have hr' := congrArg Prod.snd h2
      simp only at hbuf hr'
      rw [← hbuf, ← hr']
      by_cases hlt : r1.rem < (fillBuf r1.reader).1.length
      · rw [if_pos hlt]
        simp [List.length_take]
      · rw [if_neg hlt]
        have := not_lt.1 hlt
        simpa using this
  · simp only [crConsume]
    rw [ham]
    omega
  · simp only [crConsume]
    rw [ham]

/-- Concrete run of the decoder invariants: a reader with one remaining
byte in the current chunk exposes exactly one byte of a two-byte fill,
and an oversized consume is clamped. -/
theorem chunked_reader_invariants_witness :
    ([7] : List Nat).length ≤ (⟨⟨[7, 8], []⟩, 1, .next⟩ : CReader).rem ∧
    (crConsume ⟨⟨[7, 8], []⟩, 1, .next⟩ 5).rem
        + min 5 (⟨⟨[7, 8], []⟩, 1, .next⟩ : CReader).rem
        = (⟨⟨[7, 8], []⟩, 1, .next⟩ : CReader).rem ∧
    (crConsume ⟨⟨[7, 8], []⟩, 1, .next⟩ 5).reader
        = consume ⟨[7, 8], []⟩ (min 5 (⟨⟨[7, 8], []⟩, 1, .next⟩ : CReader).rem) :=
  ⟨(chunked_reader_invariants ⟨⟨[7, 8], []⟩, 1, .next⟩ 5).1 [7]
      ⟨⟨[7, 8], []⟩, 1, .next⟩ rfl,
   (chunked_reader_invariants ⟨⟨[7, 8], []⟩, 1, .next⟩ 5).2.1,
   (chunked_reader_invariants ⟨⟨[7, 8], []⟩, 1, .next⟩ 5).2.2⟩

/-- Header names that the normalisation in `send_with_opts` touches;
`other` stands for any further name. -/
inductive HName where
  | connection
  | userAgent
  | acceptEncoding
  | contentLength
  | transferEncoding
  | host
  | other (i : Nat)
deriving DecidableEq, Repr

/-- Header value atoms: a value is a comma-joined token list, so list
append models the comma-append performed by `append_enconding`. -/
inductive Tok where
  | close
  | defUserAgent
  | deflateGzip
  | chunkedTok
  | num (n : Nat)
  | raw (i : Nat)
deriving DecidableEq, Repr

/-- Remove every entry with the given name (the first half of
`HeaderMap::insert`). -/
def removeH : List (HName × List Tok) → HName → List (HName × List Tok)
  | [], _ => []
  | p :: rest, n => if p.1 = n then removeH rest n else p :: removeH rest n

/-- Model of `HeaderMap::insert`: all previous values for the name are
removed and the new value is associated with it. -/
def insertH (h : List (HName × List Tok)) (n : HName) (v : List Tok) :
    List (HName × List Tok) :=
  removeH h n ++ [(n, v)]

/-- First value stored under a name, if any. -/
def findH : List (HName × List Tok) → HName → Option (List Tok)
  | [], _ => none
  | p :: rest, n => if p.1 = n then some p.2 else findH rest n

/-- Model of `entry(..).or_insert_with(..)`: insert only when absent. -/
def orInsertH (h : List (HName × List Tok)) (n : HName) (v : List Tok) :
    List (HName × List Tok) :=
  if (findH h n).isSome then h else h ++ [(n, v)]

/-- Model of `append_enconding` of `lib.rs`: a vacant entry is filled
with the token alone, an occupied entry gets the token appended to its
first value after a comma. -/
def appendTok : List (HName × List Tok) → HName → Tok → List (HName × List Tok)
  | [], n, t => [(n, [t])]
  | p :: rest, n, t =>
    if p.1 = n then (p.1, p.2 ++ [t]) :: rest
    else p :: appendTok rest n t

/-- Body kinds reported by `BodyWriter::kind`, as in `body_writer.rs`. -/
inductive BodyKind where
  | empty
  | knownLength (n : Nat)
  | chunked
deriving DecidableEq, Repr

/-- Header normalisation performed by `send_with_opts` before the
redirect loop: force `Connection: close`, default `User-Agent`, force
`Accept-Encoding` when the decompression feature is compiled in. -/
def normalizePre (flate2 : Bool) (headers : List (HName × List Tok)) :
    List (HName × List Tok) :=
  let h1 := insertH headers .connection [.close]
  let h2 := orInsertH h1 .userAgent [.defUserAgent]
  if flate2 then insertH h2 .acceptEncoding [.deflateGzip] else h2

/-- Framing part of the normalisation in `send_with_opts`: inspect the
body kind and set `Content-Length`, append `chunked` to
`Transfer-Encoding`, or neither; the boolean is the `chunked` flag the
source keeps. -/
def send_normalize (flate2 : Bool) (headers : List (HName × List Tok))
    (kind : BodyKind) : List (HName × List Tok) × Bool :=
  match kind with
  | .empty => (normalizePre flate2 headers, false)
  | .knownLength n =>
    (insertH (normalizePre flate2 headers) .contentLength [.num n], false)
  | .chunked =>
    (appendTok (normalizePre flate2 headers) .transferEncoding .chunkedTok, true)

/-- All values stored under a name, in order. -/
def valuesOf : List (HName × List Tok) → HName → List (List Tok)
  | [], _ => []
  | p :: rest, n => if p.1 = n then p.2 :: valuesOf rest n else valuesOf rest n

theorem valuesOf_append (a b : List (HName × List Tok)) (n : HName) :
    valuesOf (a ++ b) n = valuesOf a n ++ valuesOf b n := by
  induction a with
  | nil => rfl
  | cons p rest ih =>
    rw [List.cons_append, valuesOf, valuesOf]
    by_cases h : p.1 = n
    · rw [if_pos h, if_pos h, ih, List.cons_append]
    · rw [if_neg h, if_neg h, ih]

theorem valuesOf_removeH_same (h : List (HName × List Tok)) (n : HName) :
    valuesOf (removeH h n) n = [] := by
  induction h with
  | nil => rfl
  | cons p rest ih =>
    rw [removeH]
    by_cases hp : p.1 = n
    · rw [if_pos hp]; exact ih
    · rw [if_neg hp, valuesOf, if_neg hp]; exact ih

theorem valuesOf_removeH_ne (h : List (HName × List Tok)) (n n' : HName)
    (hne : n' ≠ n) : valuesOf (removeH h n) n' = valuesOf h n' := by
  induction h with
  | nil => rfl
  | cons p rest ih =>
    rw [removeH, valuesOf]
    by_cases hp : p.1 = n
    · rw [if_pos hp]
      have : ¬ p.1 = n' := by rw [hp]; exact Ne.symm hne
      rw [if_neg this]
      exact ih
    · rw [if_neg hp, valuesOf]
      by_cases hp' : p.1 = n'
      · rw [if_pos hp', if_pos hp', ih]
      · rw [if_neg hp', if_neg hp', ih]

theorem valuesOf_insertH_same (h : List (HName × List Tok)) (n : HName)
    (v : List Tok) : valuesOf (insertH h n v) n = [v] := by
  rw [insertH, valuesOf_append, valuesOf_removeH_same]
  simp [valuesOf]

theorem valuesOf_insertH_ne (h : List (HName × List Tok)) (n n' : HName)
    (v : List Tok) (hne : n' ≠ n) :
    valuesOf (insertH h n v) n' = valuesOf h n' := by
  rw [insertH, valuesOf_append, valuesOf_removeH_ne h n n' hne]
  have : valuesOf [(n, v)] n' = [] := by
    simp [valuesOf, Ne.symm hne]
  rw [this, List.append_nil]

theorem valuesOf_orInsertH_ne (h : List (HName × List Tok)) (n n' : HName)
    (v : List Tok) (hne : n' ≠ n) :
    valuesOf (orInsertH h n v) n' = valuesOf h n' := by
  rw [orInsertH]
  by_cases hf : (findH h n).isSome
  · rw [if_pos hf]
  · rw [if_neg hf, valuesOf_append]
    have : valuesOf [(n, v)] n' = [] := by
      simp [valuesOf, Ne.symm hne]
    rw [this, List.append_nil]

theorem valuesOf_appendTok_ne (h : List (HName × List Tok)) (n n' : HName)
    (t : Tok) (hne : n' ≠ n) :
    valuesOf (appendTok h n t) n' = valuesOf h n' := by
  induction h with
  | nil =>
    rw [appendTok]
    simp [valuesOf, Ne.symm hne]
  | cons p rest ih =>
    rw [appendTok]
    by_cases hp : p.1 = n
    · rw [if_pos hp, valuesOf, valuesOf]
      have hq : ¬ p.1 = n' := by rw [hp]; exact Ne.symm hne
      rw [if_neg hq, if_neg hq]
    · rw [if_neg hp, valuesOf, valuesOf]
      by_cases hp' : p.1 = n'
      · rw [if_pos hp', if_pos hp', ih]
      · rw [if_neg hp', if_neg hp', ih]

theorem valuesOf_appendTok_absent (h : List (HName × List Tok)) (n : HName)
    (t : Tok) (habs : valuesOf h n = []) :
    valuesOf (appendTok h n t) n = [[t]] := by
  induction h with
  | nil => simp [appendTok, valuesOf]
  | cons p rest ih =>
    rw [appendTok]
    by_cases hp : p.1 = n
    · exfalso
      rw [valuesOf, if_pos hp] at habs
      exact List.cons_ne_nil _ _ habs
    · rw [valuesOf] at habs
      rw [if_neg hp] at habs
      rw [if_neg hp, valuesOf, if_neg hp]
      exact ih habs

theorem valuesOf_normalizePre (flate2 : Bool) (headers : List (HName × List Tok))
    (n' : HName) (h1 : n' ≠ .connection) (h2 : n' ≠ .userAgent)
    (h3 : n' ≠ .acceptEncoding) :
    valuesOf (normalizePre flate2 headers) n' = valuesOf headers n' := by
  rw [normalizePre]
  by_cases hf : flate2 = true
  · rw [if_pos hf, valuesOf_insertH_ne _ _ _ _ h3, valuesOf_orInsertH_ne _ _ _ _ h2,
      valuesOf_insertH_ne _ _ _ _ h1]
  · rw [if_neg hf, valuesOf_orInsertH_ne _ _ _ _ h2, valuesOf_insertH_ne _ _ _ _ h1]

/-- C3: framing headers after normalisation.  Starting from a request
that carries neither framing header, an Empty body leaves both
`Content-Length` and `Transfer-Encoding` unset, a KnownLength(n) body
produces exactly one `Content-Length: n` and no `Transfer-Encoding`,
and a Chunked body appends the token `chunked` to `Transfer-Encoding`
(here: creates the single value `chunked`) and no `Content-Length`;
the source's `chunked` flag is set exactly for the Chunked kind. -/
theorem header_framing_exclusive (flate2 : Bool)
    (headers : List (HName × List Tok)) (kind : BodyKind)
    (hcl : valuesOf headers .contentLength = [])
    (hte : valuesOf headers .transferEncoding = []) :
    (kind = .empty →
      valuesOf (send_normalize flate2 headers kind).1 .contentLength = [] ∧
      valuesOf (send_normalize flate2 headers kind).1 .transferEncoding = []) ∧
    (∀ n, kind = .knownLength n →
      valuesOf (send_normalize flate2 headers kind).1 .contentLength = [[.num n]] ∧
      valuesOf (send_normalize flate2 headers kind).1 .transferEncoding = []) ∧
    (kind = .chunked →
      valuesOf (send_normalize flate2 headers kind).1 .transferEncoding
          = [[.chunkedTok]] ∧
      valuesOf (send_normalize flate2 headers kind).1 .contentLength = []) ∧
    ((send_normalize flate2 headers kind).2 = true ↔ kind = .chunked) := by
  have hclp : valuesOf (normalizePre flate2 headers) .contentLength = [] := by
    rw [valuesOf_normalizePre flate2 headers _ (by simp) (by simp) (by simp)]
    exact hcl
  have htep : valuesOf (normalizePre flate2 headers) .transferEncoding = [] := by
    rw [valuesOf_normalizePre flate2 headers _ (by simp) (by simp) (by simp)]
    exact hte
  refine ⟨?_, ?_, ?_, ?_⟩
  · intro hk
    subst hk
    exact ⟨hclp, htep⟩
  · intro n hk
    subst hk
    constructor
    · rw [send_normalize]
      exact valuesOf_insertH_same _ _ _
    · rw [send_normalize]
      rw [valuesOf_insertH_ne _ _ _ _ (by simp)]
      exact htep
  · intro hk
    subst hk
    constructor
    · rw [send_normalize]
      exact valuesOf_appendTok_absent _ _ _ htep
    · rw [send_normalize]
      rw [valuesOf_appendTok_ne _ _ _ _ (by simp)]
      exact hclp
  · cases kind with
    | empty => simp [send_normalize]
    | knownLength n => simp [send_normalize]
    | chunked => simp [send_normalize]

/-- Concrete runs of the framing theorem on a fresh request carrying
only a `Host` header, for each of the three body kinds. -/
theorem header_framing_exclusive_witness :
    (valuesOf (send_normalize false [(HName.host, [Tok.raw 0])] .empty).1
        .contentLength = [] ∧
      valuesOf (send_normalize false [(HName.host, [Tok.raw 0])] .empty).1
        .transferEncoding = []) ∧
    (valuesOf (send_normalize false [(HName.host, [Tok.raw 0])]
          (.knownLength 11)).1 .contentLength = [[.num 11]] ∧
      valuesOf (send_normalize false [(HName.host, [Tok.raw 0])]
          (.knownLength 11)).1 .transferEncoding = []) ∧
    (valuesOf (send_normalize false [(HName.host, [Tok.raw 0])] .chunked).1
        .transferEncoding = [[.chunkedTok]] ∧
      valuesOf (send_normalize false [(HName.host, [Tok.raw 0])] .chunked).1
        .contentLength = []) :=
  ⟨(header_framing_exclusive false [(HName.host, [Tok.raw 0])] .empty
      rfl rfl).1 rfl,
   (header_framing_exclusive false [(HName.host, [Tok.raw 0])] (.knownLength 11)
      rfl rfl).2.1 11 rfl,
   (header_framing_exclusive false [(HName.host, [Tok.raw 0])] .chunked
      rfl rfl).2.2.1 rfl⟩

/-- Redirect-relevant options of `Options`: the remaining redirect
counter and the remaining overall timeout (durations as naturals). -/
structure OptsM where
  followRedirects : Option Nat
  timeout : Option Nat
deriving DecidableEq, Repr

/-- Model of `handle_redirects` of `lib.rs`.  The `Location` header is
modelled as an already-parsed optional URI (an abstract identifier);
statuses are naturals.  Order of checks follows the source: trigger
statuses, counter at zero, decrement, deadline budget, then the
`Location` header. -/
def handle_redirects (status : Nat) (location : Option Nat) (opts : OptsM)
    (elapsed : Nat) : Except ZErr (Option Nat × OptsM) :=
  match opts.followRedirects with
  | none => .ok (none, opts)
  | some redirects =>
    if status = 301 ∨ status = 302 ∨ status = 303 ∨ status = 307 ∨ status = 308 then
      if redirects = 0 then .error .tooManyRedirects
      else
        match opts.timeout with
        | some t =>
          if t ≤ elapsed then .error .tooManyRedirects
          else
            match location with
            | none => .error .missingLocation
            | some loc => .ok (some loc, ⟨some (redirects - 1), some (t - elapsed)⟩)
        | none =>
          match location with
          | none => .error .missingLocation
          | some loc => .ok (some loc, ⟨some (redirects - 1), none⟩)
    else .ok (none, opts)

/-- C4: the redirect machine fires exactly for the statuses 301, 302,
303, 307 and 308; a triggering response fails with `TooManyRedirects`
when the counter is zero, otherwise the counter is decremented and the
`Location` header is read, failing with `MissingLocation` when absent;
every non-triggering response is handed back unchanged. -/
theorem redirect_machine (status : Nat) (location : Option Nat) (n : Nat)
    (timeout : Option Nat) (elapsed : Nat) :
    (¬ (status = 301 ∨ status = 302 ∨ status = 303 ∨ status = 307 ∨ status = 308) →
      ∀ fr, handle_redirects status location ⟨fr, timeout⟩ elapsed
        = .ok (none, ⟨fr, timeout⟩)) ∧
    ((status = 301 ∨ status = 302 ∨ status = 303 ∨ status = 307 ∨ status = 308) →
      handle_redirects status location ⟨some 0, timeout⟩ elapsed
        = .error .tooManyRedirects) ∧
    ((status = 301 ∨ status = 302 ∨ status = 303 ∨ status = 307 ∨ status = 308) →
      0 < n → (∀ t ∈ timeout, elapsed < t) → location = none →
      handle_redirects status location ⟨some n, timeout⟩ elapsed
        = .error .missingLocation) ∧
    ((status = 301 ∨ status = 302 ∨ status = 303 ∨ status = 307 ∨ status = 308) →
      0 < n → (∀ t ∈ timeout, elapsed < t) → ∀ loc, location = some loc →
      handle_redirects status location ⟨some n, timeout⟩ elapsed
        = .ok (some loc, ⟨some (n - 1), timeout.map (fun t => t - elapsed)⟩)) := by
  refine ⟨?_, ?_, ?_, ?_⟩
  · intro hs fr
    cases fr with
    | none => rfl
    | some r =>
      simp only [handle_redirects]
      rw [if_neg hs]
  · intro hs
    simp only [handle_redirects]
    rw [if_pos hs]
    rfl
  · intro hs hn ht hloc
    subst hloc
    simp only [handle_redirects]
    rw [if_pos hs, if_neg (by omega)]
    cases timeout with
    | none => rfl
    | some t =>
      have het : elapsed < t := ht t rfl
      simp only []
      rw [if_neg (by omega)]
  · intro hs hn ht loc hloc
    subst hloc
    simp only [handle_redirects]
    rw [if_pos hs, if_neg (by omega)]
    cases timeout with
    | none => rfl
    | some t =>
      have het : elapsed < t := ht t rfl
      simp only []
      rw [if_neg (by omega)]
      rfl

/-- Concrete runs of the redirect machine: 304 is returned to the
caller, 301 with an exhausted counter fails, 301 without a `Location`
fails with `MissingLocation`, and 301 with one follows it. -/
theorem redirect_machine_witness :
    handle_redirects 304 (some 9) ⟨some 5, none⟩ 0 = .ok (none, ⟨some 5, none⟩) ∧
    handle_redirects 301 (some 9) ⟨some 0, none⟩ 0 = .error .tooManyRedirects ∧
    handle_redirects 301 none ⟨some 3, none⟩ 0 = .error .missingLocation ∧
    handle_redirects 301 (some 9) ⟨some 3, none⟩ 0
      = .ok (some 9, ⟨some 2, none⟩) :=
  ⟨(redirect_machine 304 (some 9) 0 none 0).1 (by decide) (some 5),
   (redirect_machine 301 (some 9) 0 none 0).2.1 (by decide),
   (redirect_machine 301 none 3 none 0).2.2.1 (by decide) (by decide)
     (by intro t ht; cases ht) rfl,
   (redirect_machine 301 (some 9) 3 none 0).2.2.2 (by decide) (by decide)
     (by intro t ht; cases ht) 9 rfl⟩

/-- Deadline bookkeeping of one redirect hop, as in `handle_redirects`
of `lib.rs`: fail with `TooManyRedirects` when the remaining budget is
not larger than the elapsed time, otherwise subtract the elapsed time
from the budget. -/
def redirect_tick (remaining elapsed : Nat) : Except ZErr Nat :=
  if remaining ≤ elapsed then .error .tooManyRedirects else .ok (remaining - elapsed)

/-- Timing skeleton of the redirect loop of `send_with_opts`: `start`
is taken once before the loop; at each response (arriving at the
absolute times listed in `ts`) the elapsed time since the previous
response is measured, `start` is reset, and the remaining budget is
updated by `redirect_tick`.  Returns the final budget and the final
`start` instant. -/
def send_deadline_loop : Nat → Nat → List Nat → Except ZErr (Nat × Nat)
  | rem, prev, [] => .ok (rem, prev)
  | rem, prev, t :: ts =>
    match redirect_tick rem (t - prev) with
    | .error e => .error e
    | .ok rem1 => send_deadline_loop rem1 t ts

theorem send_deadline_loop_invariant (T t0 : Nat) :
    ∀ ts rem prev, t0 ≤ prev → rem + (prev - t0) = T →
      List.Chain (· ≤ ·) prev ts →
      ((∀ t ∈ ts, t - t0 < T) →
        ∃ rem1 last, send_deadline_loop rem prev ts = .ok (rem1, last) ∧
          last + rem1 = t0 + T ∧ rem1 = T - (last - t0)) ∧
      ((∃ t ∈ ts, T ≤ t - t0) →
        send_deadline_loop rem prev ts = .error .tooManyRedirects) := by
  intro ts
  induction ts with
  | nil =>
    intro rem prev hprev hrem _
    constructor
    · intro _
      exact ⟨rem, prev, rfl, by omega, by omega⟩
    · intro hex
      simp at hex
  | cons t ts ih =>
    intro rem prev hprev hrem hchain
    have hpt : prev ≤ t := by
      cases hchain with
      | cons h _ => exact h
    have hchain' : List.Chain (· ≤ ·) t ts := by
      cases hchain with
      | cons _ h => exact h
    by_cases hstop : rem ≤ t - prev
    · have hT : T ≤ t - t0 := by omega
      have hloop : send_deadline_loop rem prev (t :: ts)
          = .error .tooManyRedirects := by
        rw [send_deadline_loop, redirect_tick, if_pos hstop]
      constructor
      · intro hall
        have := hall t (List.mem_cons_self t ts)
        omega
      · intro _
        exact hloop
    · have hlt : t - prev < rem := by omega
      have hstep : send_deadline_loop rem prev (t :: ts)
          = send_deadline_loop (rem - (t - prev)) t ts := by
        rw [send_deadline_loop, redirect_tick, if_neg hstop]
      have hrem1 : rem - (t - prev) + (t - t0) = T := by omega
      have hih := ih (rem - (t - prev)) t (by omega) hrem1 hchain'
      constructor
      · intro hall
        obtain ⟨rem1, last, hout, hlast, hval⟩ :=
          hih.1 (fun x hx => hall x (List.mem_cons_of_mem t hx))
        exact ⟨rem1, last, by rw [hstep]; exact hout, hlast, hval⟩
      · intro hex
        obtain ⟨x, hx, hTx⟩ := hex
        rcases List.mem_cons.1 hx with hx0 | hx1
        · subst hx0
          omega
        · rw [hstep]
          exact hih.2 ⟨x, hx1, hTx⟩

/-- C5: with an overall timeout `T` configured, the loop in
`send_with_opts` keeps, at every redirect hop, a remaining budget equal
to the configured duration minus the total elapsed time, so the
absolute deadline it induces — the measurement instant plus the
remaining budget — is the single instant `t0 + T` fixed before the
first iteration; `TooManyRedirects` is returned exactly at the first
hop whose response time reaches or passes that deadline, equivalently
whenever the elapsed time reaches or exceeds the remaining budget. -/
theorem deadline_single_absolute_instant (T t0 : Nat) (ts : List Nat)
    (hchain : List.Chain (· ≤ ·) t0 ts) :
    ((∀ t ∈ ts, t - t0 < T) →
      ∃ rem last, send_deadline_loop T t0 ts = .ok (rem, last) ∧
        last + rem = t0 + T ∧ rem = T - (last - t0)) ∧
    ((∃ t ∈ ts, T ≤ t - t0) →
      send_deadline_loop T t0 ts = .error .tooManyRedirects) ∧
    (∀ rem e, redirect_tick rem e = .error .tooManyRedirects ↔ rem ≤ e) := by
  have h := send_deadline_loop_invariant T t0 ts T t0 (le_refl t0) (by omega) hchain
  refine ⟨h.1, h.2, ?_⟩
  intro rem e
  constructor
  · intro heq
    by_contra hnot
    rw [redirect_tick, if_neg hnot] at heq
    cases heq
  · intro hle
    rw [redirect_tick, if_pos hle]

/-- Concrete runs of the deadline theorem: a 10-unit budget survives
hops at times 3 and 7 with the invariant deadline 10; a 5-unit budget
fails at the hop at time 7; and a 2-unit budget with 3 units elapsed
trips the per-hop check. -/
theorem deadline_single_absolute_instant_witness :
    (∃ rem last, send_deadline_loop 10 0 [3, 7] = .ok (rem, last) ∧
      last + rem = 0 + 10 ∧ rem = 10 - (last - 0)) ∧
    send_deadline_loop 5 0 [3, 7] = .error .tooManyRedirects ∧
    redirect_tick 2 3 = .error .tooManyRedirects :=
  ⟨(deadline_single_absolute_instant 10 0 [3, 7]
      (.cons (by omega) (.cons (by omega) .nil))).1 (by decide),
   (deadline_single_absolute_instant 5 0 [3, 7]
      (.cons (by omega) (.cons (by omega) .nil))).2.1 (by decide),
   ((deadline_single_absolute_instant 5 0 [] .nil).2.2 2 3).2 (by decide)⟩

/-- Resolved socket address, abstracted to its family and an identifier
(order of equal-family addresses is all the algorithm depends on). -/
structure Addr where
  v6 : Bool
  id : Nat
deriving DecidableEq, Repr

/-- Fused form of the two `iter_mut().filter(..).enumerate()` passes of
`connect` in `happy_eyeballs.rs`: the i-th IPv6 address receives
priority `2 * i`, the i-th IPv4 address priority `2 * i + 1`, each
family counted in original order (every address is exactly one of the
two families). -/
def prioritize : List Addr → Nat → Nat → List (Nat × Addr)
  | [], _, _ => []
  | a :: rest, c6, c4 =>
    if a.v6 then (2 * c6, a) :: prioritize rest (c6 + 1) c4
    else (2 * c4 + 1, a) :: prioritize rest c6 (c4 + 1)

/-- Priorities assigned by `connect` before sorting. -/
def assignPrios (l : List Addr) : List (Nat × Addr) :=
  prioritize l 0 0

instance : DecidableRel (fun (a b : Nat × Addr) => a.1 ≤ b.1) :=
  fun a b => Nat.decLe a.1 b.1

instance : IsTotal (Nat × Addr) (fun a b => a.1 ≤ b.1) :=
  ⟨fun a b => Nat.le_total a.1 b.1⟩

instance : IsTrans (Nat × Addr) (fun a b => a.1 ≤ b.1) :=
  ⟨fun _ _ _ h1 h2 => le_trans h1 h2⟩

/-- Model of `sort_unstable_by_key(|(prio, _)| *prio)` (the priorities
are pairwise distinct, so any sort produces the same list). -/
def sortByPrio (l : List (Nat × Addr)) : List (Nat × Addr) :=
  List.insertionSort (fun a b => a.1 ≤ b.1) l

/-- Order in which `connect` launches its attempts: a single resolved
address is dialled directly, otherwise the prioritised list is sorted
and walked front to back. -/
def connect_order (l : List Addr) : List Addr :=
  match l with
  | [a] => [a]
  | _ => (sortByPrio (assignPrios l)).map Prod.snd

theorem prioritize_v6 (l : List Addr) :
    ∀ c6 c4,
      ((prioritize l c6 c4).filter (fun p => p.2.v6)).map Prod.fst
        = (List.range' c6 (l.filter (fun a => a.v6)).length).map (fun i => 2 * i) ∧
      ((prioritize l c6 c4).filter (fun p => p.2.v6)).map Prod.snd
        = l.filter (fun a => a.v6) := by
  induction l with
  | nil => intro c6 c4; exact ⟨rfl, rfl⟩
  | cons a rest ih =>
    intro c6 c4
    by_cases ha : a.v6
    · rw [prioritize, if_pos ha]
      have h1 : List.filter (fun p => p.2.v6) ((2 * c6, a) :: prioritize rest (c6 + 1) c4)
          = (2 * c6, a) :: List.filter (fun p => p.2.v6) (prioritize rest (c6 + 1) c4) := by
        rw [List.filter_cons_of_pos]
        simpa using ha
      have h2 : List.filter (fun x => x.v6) (a :: rest)
          = a :: List.filter (fun x => x.v6) rest := by
        rw [List.filter_cons_of_pos]
        simpa using ha
      rw [h1, h2]
      obtain ⟨ih1, ih2⟩ := ih (c6 + 1) c4
      constructor
      · rw [List.map_cons, ih1, List.length_cons, List.range'_succ, List.map_cons]
      · rw [List.map_cons, ih2]
    · rw [prioritize, if_neg ha]
      have h1 : List.filter (fun p => p.2.v6) ((2 * c4 + 1, a) :: prioritize rest c6 (c4 + 1))
          = List.filter (fun p => p.2.v6) (prioritize rest c6 (c4 + 1)) := by
        rw [List.filter_cons_of_neg]
        simpa using ha
      have h2 : List.filter (fun x => x.v6) (a :: rest)
          = List.filter (fun x => x.v6) rest := by
        rw [List.filter_cons_of_neg]
        simpa using ha
      rw [h1, h2]
      exact ih c6 (c4 + 1)

theorem prioritize_v4 (l : List Addr) :
    ∀ c6 c4,
      ((prioritize l c6 c4).filter (fun p => !p.2.v6)).map Prod.fst
        = (List.range' c4 (l.filter (fun a => !a.v6)).length).map (fun i => 2 * i + 1) ∧
      ((prioritize l c6 c4).filter (fun p => !p.2.v6)).map Prod.snd
        = l.filter (fun a => !a.v6) := by
  induction l with
  | nil => intro c6 c4; exact ⟨rfl, rfl⟩
  | cons a rest ih =>
    intro c6 c4
    by_cases ha : a.v6
    · rw [prioritize, if_pos ha]
      have h1 : List.filter (fun p => !p.2.v6) ((2 * c6, a) :: prioritize rest (c6 + 1) c4)
          = List.filter (fun p => !p.2.v6) (prioritize rest (c6 + 1) c4) := by
        rw [List.filter_cons_of_neg]
        simpa using ha
      have h2 : List.filter (fun x => !x.v6) (a :: rest)
          = List.filter (fun x => !x.v6) rest := by
        rw [List.filter_cons_of_neg]
        simpa using ha
      rw [h1, h2]
      exact ih (c6 + 1) c4
    · rw [prioritize, if_neg ha]
      have h1 : List.filter (fun p => !p.2.v6) ((2 * c4 + 1, a) :: prioritize rest c6 (c4 + 1))
          = (2 * c4 + 1, a) :: List.filter (fun p => !p.2.v6) (prioritize rest c6 (c4 + 1)) := by
        rw [List.filter_cons_of_pos]
        simpa using ha
      have h2 : List.filter (fun x => !x.v6) (a :: rest)
          = a :: List.filter (fun x => !x.v6) rest := by
        rw [List.filter_cons_of_pos]
        simpa using ha
      rw [h1, h2]
      obtain ⟨ih1, ih2⟩ := ih c6 (c4 + 1)
      constructor
      · rw [List.map_cons, ih1, List.length_cons, List.range'_succ, List.map_cons]
      · rw [List.map_cons, ih2]

/-- C7: Happy-Eyeballs interleaving.  For every resolved list the
priority pass gives the IPv6 addresses the even priorities 0, 2, 4, …
and the IPv4 addresses the odd priorities 1, 3, 5, …, each family in
its original order; attempts are launched in ascending priority (the
sorted list is sorted by priority and is a permutation of the
prioritised list); and for more than one resolved address, on the
list `[v6a, v6b, v4a]`, the attempt order is `v6a, v4a, v6b`. -/
theorem happy_eyeballs_interleaving :
    (∀ l : List Addr,
      ((assignPrios l).filter (fun p => p.2.v6)).map Prod.fst
        = (List.range (l.filter (fun a => a.v6)).length).map (fun i => 2 * i) ∧
      ((assignPrios l).filter (fun p => p.2.v6)).map Prod.snd
        = l.filter (fun a => a.v6)) ∧
    (∀ l : List Addr,
      ((assignPrios l).filter (fun p => !p.2.v6)).map Prod.fst
        = (List.range (l.filter (fun a => !a.v6)).length).map (fun i => 2 * i + 1) ∧
      ((assignPrios l).filter (fun p => !p.2.v6)).map Prod.snd
        = l.filter (fun a => !a.v6)) ∧
    (∀ l : List Addr,
      List.Sorted (fun a b => a.1 ≤ b.1) (sortByPrio (assignPrios l)) ∧
      (sortByPrio (assignPrios l)).Perm (assignPrios l)) ∧
    connect_order [⟨true, 0⟩, ⟨true, 1⟩, ⟨false, 2⟩]
      = [⟨true, 0⟩, ⟨false, 2⟩, ⟨true, 1⟩] := by
  refine ⟨?_, ?_, ?_, ?_⟩
  · intro l
    have h := prioritize_v6 l 0 0
    rw [List.range_eq_range']
    exact h
  · intro l
    have h := prioritize_v4 l 0 0
    rw [List.range_eq_range']
    exact h
  · intro l
    exact ⟨List.sorted_insertionSort _ _, List.perm_insertionSort _ _⟩
  · decide

/-- Model of `Timeout::read` of `timeout.rs`: the wrapped read's result
(`Except` for an I/O error, `ok n` for `n` bytes read), whether the
caller's buffer is non-empty, and whether sending the cancel signal to
the watcher fails (it does exactly when the watcher already exited). -/
def timeout_read (readResult : Except ZErr Nat) (bufNonempty sendFailed : Bool) :
    Except ZErr Nat :=
  match readResult with
  | .error e => .error e
  | .ok read =>
    if read = 0 ∧ bufNonempty = true ∧ sendFailed = true then .error .timedOut
    else .ok read

/-- C8: the wrapper turns a successful wrapped read into `TimedOut`
exactly when it read zero bytes into a non-empty buffer and the cancel
signal could not be delivered; in every other case — including every
error of the wrapped reader — the wrapped result is passed through
unchanged. -/
theorem timeout_read_exactly :
    (∀ n b s, timeout_read (.ok n) b s
        = if n = 0 ∧ b = true ∧ s = true then .error .timedOut else .ok n) ∧
    (∀ n b s, timeout_read (.ok n) b s = .error .timedOut
        ↔ (n = 0 ∧ b = true ∧ s = true)) ∧
    (∀ e b s, timeout_read (.error e) b s = .error e) := by
  refine ⟨fun n b s => rfl, ?_, fun e b s => rfl⟩
  intro n b s
  rw [timeout_read]
  by_cases h : n = 0 ∧ b = true ∧ s = true
  · rw [if_pos h]
    simp [h]
  · rw [if_neg h]
    simp [h]
